import Mathlib

/-!
Verification of the command-execution and secret-redaction pipeline of the
oh-my-pi repository, against its natural-language specification.

Shallow embedding of:
* `packages/coding-agent/src/core/streaming-output.ts` (`OutputSink`)
* `packages/coding-agent/src/exec/bash-executor.ts` (`executeBash`)
* `packages/coding-agent/src/secrets/regex.ts` (`compileSecretRegex`)
* the secret redactor (`secrets/obfuscator.ts`, not part of the provided
  sources; modelled from the specification where indicated)

Strings are modelled as `List Char`; the JS string primitives used by the
code (`slice`, `replaceAll`-style scanning, template literals) are embedded
as explicit list functions.
-/

namespace OhMyPi

/-- Strings of the TypeScript code are modelled as lists of characters. -/
abbrev Str := List Char

/-! ### Decimal rendering, used by placeholder tokens and timeout messages.
Mirrors JavaScript template-literal interpolation of a non-negative integer:
decimal digits, no leading zeros. -/

/-- Character for a single decimal digit (`0`-`9`). -/
def digitChar : Nat → Char
  | 0 => '0' | 1 => '1' | 2 => '2' | 3 => '3' | 4 => '4'
  | 5 => '5' | 6 => '6' | 7 => '7' | 8 => '8' | _ => '9'

/-- Numeric value of a decimal digit character. -/
def charVal : Char → Nat
  | '0' => 0 | '1' => 1 | '2' => 2 | '3' => 3 | '4' => 4
  | '5' => 5 | '6' => 6 | '7' => 7 | '8' => 8 | '9' => 9
  | _ => 0

/-- Test for a decimal digit character, the set matched by `\d` and used by
placeholder parsing. -/
def isDigitChar (c : Char) : Bool :=
  decide (c ∈ ['0', '1', '2', '3', '4', '5', '6', '7', '8', '9'])

/-- Decimal rendering of a natural number, as template literals produce it. -/
def natToDigits (n : Nat) : Str :=
  if h : n < 10 then [digitChar n]
  else natToDigits (n / 10) ++ [digitChar (n % 10)]
decreasing_by exact Nat.div_lt_self (by omega) (by omega)

/-- Value of a digit string read in base 10. -/
def digitsVal (ds : Str) : Nat :=
  ds.foldl (fun a c => a * 10 + charVal c) 0

/-- A digit string has no leading zero: `0` alone is fine, `0` followed by
more digits is not. -/
def noLeadZeroB : Str → Bool
  | c :: _ :: _ => !(decide (c = '0'))
  | _ => true

/-! ### OutputSink (`core/streaming-output.ts`)

State of one `OutputSink`: the in-memory `#buffer`, the optional spill file
(`#file`) holding the complete output once created, and a ghost counter of
how many times a spill file was created (the code allocates the path and
opens the writer inside `#fileSink` only when `#file` is unset). -/

structure SinkState where
  buffer : Str
  spillFile : Option Str
  spillCount : Nat
deriving DecidableEq, Repr

/-- A freshly constructed sink. -/
def initSink : SinkState := ⟨[], none, 0⟩

/-- JavaScript `s.slice(-T)`: the last `T` characters, except that
`slice(-0)` is `slice(0)`, the whole string. -/
def jsSliceLast (T : Nat) (l : Str) : Str :=
  if T = 0 then l else l.drop (l.length - T)

/-- Mirrors `OutputSink.#pushSanitized` (streaming-output.ts lines 53-67)
together with the lazy `#fileSink` creation (lines 69-79), written out over
the four cases of `bufferOverflow = data.length + buffer.length >
spillThreshold` and `#file` being set. `overflow = #file || bufferOverflow`
selects whether a file sink is obtained; when obtained for the first time
it is seeded with the current buffer; the chunk is appended to the buffer
and to the file when present; the buffer is trimmed to
`slice(-spillThreshold)` exactly when `bufferOverflow`. -/
def pushSanitized (T : Nat) (st : SinkState) (data : Str) : SinkState :=
  if T < data.length + st.buffer.length then
    match st.spillFile with
    | some f => ⟨jsSliceLast T (st.buffer ++ data), some (f ++ data), st.spillCount⟩
    | none =>
        ⟨jsSliceLast T (st.buffer ++ data), some (st.buffer ++ data), st.spillCount + 1⟩
  else
    match st.spillFile with
    | some f => ⟨st.buffer ++ data, some (f ++ data), st.spillCount⟩
    | none => ⟨st.buffer ++ data, none, st.spillCount⟩

/-- Pushing a sequence of (already sanitized) chunks into a fresh sink. -/
def pushAll (T : Nat) (chunks : List Str) : SinkState :=
  chunks.foldl (pushSanitized T) initSink

/-- Result shape of `OutputSink.dump`. -/
structure OutputResult where
  output : Str
  truncated : Bool
  fullOutputPath : Option Str
deriving DecidableEq, Repr

/-- The bracketed notice line `"[notice]\n"` prepended by `dump`. -/
def noticeLine : Option Str → Str
  | some n => '[' :: (n ++ [']', '\n'])
  | none => []

/-- Mirrors `OutputSink.dump` (streaming-output.ts lines 105-114); `path` is
the value the sink's `allocateFilePath` returned when the spill file was
created. -/
def dump (path : Str) (st : SinkState) (notice : Option Str) : OutputResult :=
  match st.spillFile with
  | some _ => ⟨noticeLine notice ++ ('.' :: '.' :: '.' :: st.buffer), true, some path⟩
  | none => ⟨noticeLine notice ++ st.buffer, false, none⟩

/-- Closed form for the sink state reached from a fresh sink: determined by
the threshold and the concatenation of everything pushed. -/
def sinkOfTotal (T : Nat) (total : Str) : SinkState :=
  if T < total.length then ⟨jsSliceLast T total, some total, 1⟩
  else ⟨total, none, 0⟩

/-! ### Live-chunk observer (`#onChunk`)

`#pushSanitized` first calls `this.#onChunk?.(data)` with no try/catch
around it, then commits the chunk. An observer is modelled as a function
that either returns or throws. -/

/-- Mirrors `#pushSanitized` with the observer call included: the observer
runs first; if it throws, the push rejects and no state is committed. -/
def pushSanitizedObs (T : Nat) (obs : Str → Except Unit Unit) (st : SinkState)
    (data : Str) : Except Unit SinkState :=
  match obs data with
  | .error e => .error e
  | .ok _ => .ok (pushSanitized T st data)

/-- Mirrors the executor's `enqueueChunk` chain
(`pendingChunks.then(() => sink.push(chunk)).catch(() => {})`,
bash-executor.ts lines 57-60): each chunk push is chained after the
previous one, and a rejected push is swallowed, leaving the sink as it was. -/
def enqueueAll (T : Nat) (obs : Str → Except Unit Unit) :
    SinkState → List Str → SinkState
  | st, [] => st
  | st, c :: cs =>
      enqueueAll T obs
        (match pushSanitizedObs T obs st c with
         | .ok s2 => s2
         | .error _ => st)
        cs

/-- Whether the observer accepts a chunk without throwing. -/
def obsOk (obs : Str → Except Unit Unit) (c : Str) : Bool :=
  match obs c with
  | .ok _ => true
  | .error _ => false

/-- A concrete observer that throws on the chunk `"b"` and accepts every
other chunk. -/
def throwingObserver (d : Str) : Except Unit Unit :=
  if d = ['b'] then .error () else .ok ()

/-- Modelled from the spec: `sanitizeText` from `@oh-my-pi/pi-utils` is not
part of the provided sources; the specification says pushed text is
sanitized with "control characters normalized". Modelled as removing ASCII
control characters other than newline and tab. -/
def sanitizeText (s : Str) : Str :=
  s.filter (fun c => decide (32 ≤ c.toNat) || decide (c = '\n') || decide (c = '\t'))

/-- Events visible during one `push`: the observer call and the commit of
the chunk into the sink. -/
inductive SinkEvent where
  | observerCall (arg : Str)
  | commit (data : Str)
deriving DecidableEq, Repr

/-- Mirrors `#pushSanitized` as a trace: the observer is called with `data`
first, then `data` is committed. -/
def pushSanitizedTrace (T : Nat) (st : SinkState) (data : Str) :
    SinkState × List SinkEvent :=
  (pushSanitized T st data, [SinkEvent.observerCall data, SinkEvent.commit data])

/-- Mirrors the public `OutputSink.push` (streaming-output.ts lines 81-84):
`chunk = sanitizeText(chunk); await this.#pushSanitized(chunk)`. Every
event of the push, the observer call included, sees the sanitized chunk. -/
def pushTrace (T : Nat) (st : SinkState) (chunk : Str) : SinkState × List SinkEvent :=
  pushSanitizedTrace T st (sanitizeText chunk)

/-! ### Command executor (`exec/bash-executor.ts`) -/

/-- Result shape of the external runtime's `executeShell`
(`natives/src/shell/types.ts`): exit code is undefined if cancelled or
timed out. -/
structure ShellExecuteResult where
  exitCode : Option Int
  cancelled : Bool
  timedOut : Bool
deriving DecidableEq, Repr

/-- The `executeBash` options that the control flow depends on. `signal` is
`none` when no cancellation signal was supplied, `some b` when one was, `b`
recording whether it is already aborted at call time. -/
structure BashOptions where
  timeout : Option Nat
  signal : Option Bool
  sessionKey : Option Str
deriving DecidableEq, Repr

/-- Observable outcome of `executeBash`, extended with ghost fields
recording its interaction with collaborators: whether `executeShell` was
invoked, whether an abort listener was registered on the signal, which
session key was passed, and which notice string was handed to `dump`. -/
structure BashOutcome where
  output : Str
  exitCode : Option Int
  cancelled : Bool
  truncated : Bool
  fullOutputPath : Option Str
  notice : Option Str
  invokedRuntime : Bool
  registeredListener : Bool
  passedSessionKey : Option Str
deriving DecidableEq, Repr

/-- The cancellation notice string. -/
def cancelNotice : Str := String.toList "Command cancelled"

/-- The timeout notice: includes the configured duration, rounded to
seconds (`Math.round(timeout / 1000)`), when a timeout was configured. -/
def timeoutNotice : Option Nat → Str
  | some ms =>
      String.toList "Command timed out after " ++ natToDigits ((ms + 500) / 1000)
        ++ String.toList " seconds"
  | none => String.toList "Command timed out"

/-- Mirrors `executeBash` (bash-executor.ts lines 38-131): if a supplied
signal is already aborted, short-circuit to a cancelled result from the
fresh sink without calling the runtime or registering a listener;
otherwise run, funnel every chunk through `sink.push` (which sanitizes),
and classify the runtime result as timed out, cancelled, or completed.
`T` is the sink's spill threshold and `path` its allocated spill path. -/
def executeBash (T : Nat) (path : Str) (opts : BashOptions)
    (rt : ShellExecuteResult) (chunks : List Str) : BashOutcome :=
  if opts.signal = some true then
    let d := dump path initSink (some cancelNotice)
    ⟨d.output, none, true, d.truncated, d.fullOutputPath, some cancelNotice,
      false, false, none⟩
  else
    let sink := pushAll T (chunks.map sanitizeText)
    let registered := opts.signal.isSome
    let key := opts.sessionKey.getD (String.toList "singleton")
    if rt.timedOut then
      let n := timeoutNotice opts.timeout
      let d := dump path sink (some n)
      ⟨d.output, none, true, d.truncated, d.fullOutputPath, some n,
        true, registered, some key⟩
    else if rt.cancelled then
      let d := dump path sink (some cancelNotice)
      ⟨d.output, none, true, d.truncated, d.fullOutputPath, some cancelNotice,
        true, registered, some key⟩
    else
      let d := dump path sink none
      ⟨d.output, rt.exitCode, false, d.truncated, d.fullOutputPath, none,
        true, registered, some key⟩

/-- The three terminal states of the specification's state machine:
Completed. -/
def CompletedState (o : BashOutcome) : Prop :=
  o.exitCode.isSome ∧ o.cancelled = false

/-- Terminal state TimedOut: no exit code, cancelled flag set, output
annotated with the timeout notice (which names the configured duration). -/
def TimedOutState (o : BashOutcome) (timeout : Option Nat) : Prop :=
  o.exitCode = none ∧ o.cancelled = true ∧ o.notice = some (timeoutNotice timeout)

/-- Terminal state Cancelled: no exit code, cancelled flag set, output
annotated with the cancellation notice. -/
def CancelledState (o : BashOutcome) : Prop :=
  o.exitCode = none ∧ o.cancelled = true ∧ o.notice = some cancelNotice

/-! ### Secret regex compilation (`secrets/regex.ts`) -/

/-- Flag characters accepted by the literal-syntax detector's character
class (`[ gimsuy]` in the source). -/
def isFlagChar (c : Char) : Bool :=
  decide (c ∈ [' ', 'g', 'i', 'm', 's', 'u', 'y'])

/-- Body scanner for the delimiter-literal detector
`/^\/((?:[^\\/]|\\.)*)\/([ gimsuy]*)$/`: consumes body tokens (an escaped
pair, or any single character other than `/` and the backslash) up to the
first unescaped `/`, returning the body and what follows that `/`. The
regex's decomposition is deterministic, so this scanner is its exact
semantics. -/
def scanBody : Str → Option (Str × Str)
  | [] => none
  | '/' :: rest => some ([], rest)
  | '\\' :: c :: rest =>
      match scanBody rest with
      | some (b, r) => some ('\\' :: c :: b, r)
      | none => none
  | c :: rest =>
      if c = '\\' then none
      else
        match scanBody rest with
        | some (b, r) => some (c :: b, r)
        | none => none

/-- Detection of regex literal syntax `/pattern/flags` (regex.ts line 12):
succeeds when the whole entry is `/`, a body, `/`, and then only flag
characters. -/
def parseRegexLiteral (p : Str) : Option (Str × Str) :=
  match p with
  | '/' :: rest =>
      match scanBody rest with
      | some (body, fl) => if fl.all isFlagChar then some (body, fl) else none
      | none => none
  | _ => none

/-- Mirrors `enforceGlobalFlag` (regex.ts lines 2-4). -/
def enforceGlobalFlag (flags : Str) : Str :=
  if 'g' ∈ flags then flags else flags ++ ['g']

/-- Insertion-order deduplication, as `[...new Set([...a, ...b])].join("")`
performs it. -/
def dedupChars (l : Str) : Str :=
  l.foldl (fun acc c => if c ∈ acc then acc else acc ++ [c]) []

/-- Mirrors `compileSecretRegex` (regex.ts lines 7-21), returning the
resolved pattern source and flags of the constructed `RegExp`. -/
def compileSecretRegex (pattern : Str) (flags : Option Str) : Str × Str :=
  let resolvedFlags := flags.getD []
  match parseRegexLiteral pattern with
  | some (body, litFlags) =>
      (body, enforceGlobalFlag (dedupChars (resolvedFlags ++ litFlags)))
  | none => (pattern, enforceGlobalFlag resolvedFlags)

/-! ### Secret redactor

Modelled from the spec: `secrets/obfuscator.ts` and `secrets/index.ts` (the
`redact`/`restore` transforms and entry compilation) are not part of the
provided sources. Following spec section 4.3 and `docs/secrets.md`, entries
are plain substring matchers (regex matchers are outside this model), each
`obfuscate` entry receives a stable monotonically increasing placeholder
index in compile order, `redact` scans text trying matchers in compile
order and substitutes the placeholder token `<<$env:S{n}>>` (or the
fixed-shape replacement for `replace` mode, defaulting to a same-length
mask), and `restore` deep-walks a structured value substituting each
placeholder token with the content of the entry at that index. -/

/-- Redaction mode of a secret entry. -/
inductive SecretMode where
  | obfuscate
  | replace
deriving DecidableEq, Repr

/-- A user-visible secret entry (plain matcher). -/
structure SecretEntry where
  content : Str
  mode : SecretMode
  replacement : Option Str
deriving DecidableEq, Repr

/-- Default one-way replacement: a same-length masking string. -/
def defaultMask (content : Str) : Str := List.replicate content.length '*'

/-- A compiled matcher: an `obfuscate` entry with its placeholder index, or
a `replace` entry with its resolved replacement. -/
inductive Matcher where
  | obf (idx : Nat) (content : Str)
  | repl (content : Str) (replacement : Str)
deriving DecidableEq, Repr

/-- The content a matcher looks for. -/
def Matcher.content : Matcher → Str
  | .obf _ c => c
  | .repl c _ => c

/-- Head of every placeholder token `<<$env:S{n}>>`. -/
def phHead : Str := ['<', '<', '$', 'e', 'n', 'v', ':', 'S']

/-- A token-shaped string with digit part `d`, followed by nothing. -/
def tokChars (d : Str) : Str := phHead ++ d ++ ['>', '>']

/-- The placeholder token for index `i`: `<<$env:S{i}>>`. -/
def placeholder (i : Nat) : Str := tokChars (natToDigits i)

/-- Token characters after the first two `<`: used to reason about where a
token can start inside redacted output. -/
def bodyChars (d : Str) : Str :=
  '$' :: 'e' :: 'n' :: 'v' :: ':' :: 'S' :: (d ++ ['>', '>'])

/-- What a matcher emits for each of its matches. -/
def Matcher.emit : Matcher → Str
  | .obf i _ => placeholder i
  | .repl _ r => r

/-- Compilation: assign each `obfuscate` entry the next placeholder index,
in merge order; resolve `replace` replacements. -/
def compileEntries : List SecretEntry → Nat → List Matcher
  | [], _ => []
  | e :: es, i =>
      match e.mode with
      | .obfuscate => .obf i e.content :: compileEntries es (i + 1)
      | .replace =>
          .repl e.content (e.replacement.getD (defaultMask e.content)) :: compileEntries es i

/-- First matcher (compile order) whose nonempty content is a prefix of the
remaining text. -/
def findMatch (ms : List Matcher) (s : Str) : Option Matcher :=
  ms.find? (fun m => decide (m.content ≠ [] ∧ m.content <+: s))

/-- Content of the `obfuscate` entry with placeholder index `n`. -/
def lookupObf (ms : List Matcher) (n : Nat) : Option Str :=
  match ms with
  | [] => none
  | .obf i c :: rest => if i = n then some c else lookupObf rest n
  | .repl _ _ :: rest => lookupObf rest n

/-- Forward transform on one string: scan left to right; at each position
substitute the first matching entry's emission and skip the matched
content, otherwise copy the character. -/
def redactStr (ms : List Matcher) : Str → Str
  | [] => []
  | c :: rest =>
      match h : findMatch ms (c :: rest) with
      | some m => m.emit ++ redactStr ms ((c :: rest).drop m.content.length)
      | none => c :: redactStr ms rest
termination_by s => s.length
decreasing_by
  · have h2 := List.find?_some h
    have h3 := of_decide_eq_true h2
    have h4 : 0 < m.content.length := List.length_pos.mpr h3.1
    have h5 : m.content.length ≤ (c :: rest).length := h3.2.length_le
    simp only [List.length_drop]
    omega
  · simp

/-- Parse a placeholder token `<<$env:S{n}>>` at the front of a string:
after the fixed head, a maximal nonempty digit run with no leading zero,
then `>>`. Returns the index and the remainder. -/
def parseToken (z : Str) : Option (Nat × Str) :=
  if z.take 8 = phHead then
    if (z.drop 8).takeWhile isDigitChar = [] then none
    else if noLeadZeroB ((z.drop 8).takeWhile isDigitChar) then
      if ((z.drop 8).dropWhile isDigitChar).take 2 = ['>', '>'] then
        some (digitsVal ((z.drop 8).takeWhile isDigitChar),
          ((z.drop 8).dropWhile isDigitChar).drop 2)
      else none
    else none
  else none

/-- Backward transform on one string: substitute each placeholder token
whose index has a compiled entry with that entry's content; every other
character is copied. Total, and the identity on token-free input. -/
def restoreStr (ms : List Matcher) : Str → Str
  | [] => []
  | c :: rest =>
      match h : parseToken (c :: rest) with
      | some (n, rest2) =>
          match lookupObf ms n with
          | some content => content ++ restoreStr ms rest2
          | none => c :: restoreStr ms rest
      | none => c :: restoreStr ms rest
termination_by s => s.length
decreasing_by
  · rw [parseToken] at h
    split at h
    · rename_i h8
      split at h
      · simp at h
      · rename_i hemp
        split at h
        · split at h
          · rename_i h2
            rw [Option.some_inj, Prod.ext_iff] at h
            obtain ⟨-, hr⟩ := h
            have hlen8 : ((c :: rest).take 8).length = 8 := by
              rw [h8]
              rfl
            rw [List.length_take] at hlen8
            have hsub : (((c :: rest).drop 8).dropWhile isDigitChar).Sublist
                ((c :: rest).drop 8) :=
              List.dropWhile_sublist isDigitChar
            have hlen := hsub.length_le
            have hd2 := congrArg List.length hr
            rw [List.length_drop] at hd2
            simp only [List.length_drop, List.length_cons] at hlen hd2 ⊢
            omega
          · simp at h
        · simp at h
    · simp at h
  · simp
  · simp

/-- Infix test, as JavaScript `string.includes`. -/
def strContains (s pat : Str) : Bool :=
  s.tails.any (fun t => pat.isPrefixOf t)

/-- No position of `s` carries a placeholder token whose index has a
compiled entry: the claim's "no literal text coincidentally matching a
placeholder token". -/
def noTok (ms : List Matcher) (s : Str) : Bool :=
  s.tails.all (fun t =>
    match parseToken t with
    | some (n, _) => !(lookupObf ms n).isSome
    | none => true)

/-- No `replace`-mode matcher's content occurs in `s`: the claim's
"containing only obfuscate-mode secrets". -/
def noRepl (ms : List Matcher) (s : Str) : Bool :=
  ms.all (fun m =>
    match m with
    | .obf _ _ => true
    | .repl c _ => !(strContains s c))

/-! ### Structured values

Arbitrary structured values: nested mappings, sequences, strings, and
non-string leaves. -/

mutual
inductive SValue where
  | str (s : Str)
  | num (n : Int)
  | boolV (b : Bool)
  | nullV
  | arr (xs : SList)
  | obj (xs : SObj)

inductive SList where
  | nil
  | cons (hd : SValue) (tl : SList)

inductive SObj where
  | nil
  | cons (key : Str) (val : SValue) (tl : SObj)
end

mutual
/-- Deep-walk a structured value, rewriting every string with `f`;
non-string leaves pass through unchanged. -/
def mapStrings (f : Str → Str) : SValue → SValue
  | .str s => .str (f s)
  | .num n => .num n
  | .boolV b => .boolV b
  | .nullV => .nullV
  | .arr xs => .arr (mapStringsL f xs)
  | .obj xs => .obj (mapStringsO f xs)

/-- Deep-walk of a sequence. -/
def mapStringsL (f : Str → Str) : SList → SList
  | .nil => .nil
  | .cons v tl => .cons (mapStrings f v) (mapStringsL f tl)

/-- Deep-walk of a mapping (keys are strings too). -/
def mapStringsO (f : Str → Str) : SObj → SObj
  | .nil => .nil
  | .cons k v tl => .cons (f k) (mapStrings f v) (mapStringsO f tl)
end

mutual
/-- Every string of a structured value satisfies `p`. -/
def valOk (p : Str → Bool) : SValue → Bool
  | .str s => p s
  | .num _ => true
  | .boolV _ => true
  | .nullV => true
  | .arr xs => listOk p xs
  | .obj xs => objOk p xs

/-- Every string of a sequence satisfies `p`. -/
def listOk (p : Str → Bool) : SList → Bool
  | .nil => true
  | .cons v tl => valOk p v && listOk p tl

/-- Every string of a mapping satisfies `p`. -/
def objOk (p : Str → Bool) : SObj → Bool
  | .nil => true
  | .cons k v tl => p k && valOk p v && objOk p tl
end

/-- Forward transform on a structured value. -/
def redactValue (ms : List Matcher) : SValue → SValue := mapStrings (redactStr ms)

/-- Backward transform on a structured value. -/
def restoreValue (ms : List Matcher) : SValue → SValue := mapStrings (restoreStr ms)

/-- The combined side condition of the round-trip claim on one string. -/
def goodStr (ms : List Matcher) (s : Str) : Bool :=
  noTok ms s && noRepl ms s

/-! ## Theorems -/

/-! ### OutputSink: spill behavior -/

theorem jsSliceLast_append (T : Nat) (x d : Str) (h : T ≤ x.length) :
    jsSliceLast T (jsSliceLast T x ++ d) = jsSliceLast T (x ++ d) := by
  unfold jsSliceLast
  by_cases hT : T = 0
  · simp [hT]
  · simp only [if_neg hT]
    rw [List.drop_append_eq_append_drop, List.drop_append_eq_append_drop,
      List.drop_drop, List.length_append, List.length_append, List.length_drop]
    have h1 : x.length - T + ((x.length - (x.length - T) + d.length) - T)
        = x.length + d.length - T := by omega
    have h2 : ((x.length - (x.length - T) + d.length) - T) - (x.length - (x.length - T))
        = (x.length + d.length - T) - x.length := by omega
    rw [h1, h2]

theorem length_jsSliceLast_of_le (T : Nat) (x : Str) (hT : T ≠ 0) (h : T ≤ x.length) :
    (jsSliceLast T x).length = T := by
  simp only [jsSliceLast, if_neg hT, List.length_drop]
  omega

theorem pushSanitized_sinkOfTotal (T : Nat) (tot d : Str) :
    pushSanitized T (sinkOfTotal T tot) d = sinkOfTotal T (tot ++ d) := by
  have e : (tot ++ d).length = tot.length + d.length := List.length_append tot d
  by_cases h1 : T < tot.length
  · rw [sinkOfTotal, sinkOfTotal, if_pos h1, if_pos (show T < (tot ++ d).length by omega)]
    by_cases hT : T = 0
    · subst hT
      rw [pushSanitized]
      simp only [jsSliceLast, reduceIte]
      rw [if_pos (show 0 < d.length + tot.length by omega)]
    · have hlen : (jsSliceLast T tot).length = T :=
        length_jsSliceLast_of_le T tot hT (le_of_lt h1)
      by_cases hd : d = []
      · subst hd
        rw [pushSanitized, if_neg (by simp only [hlen, List.length_nil]; omega)]
        simp
      · have hd' : 0 < d.length := List.length_pos.mpr hd
        rw [pushSanitized, if_pos (by simp only [hlen]; omega)]
        simp only [SinkState.mk.injEq, and_true, true_and]
        exact jsSliceLast_append T tot d (le_of_lt h1)
  · rw [sinkOfTotal, sinkOfTotal, if_neg h1]
    by_cases h2 : T < tot.length + d.length
    · rw [pushSanitized, if_pos (by simp only [List.length_nil]; omega),
        if_pos (by omega)]
    · rw [pushSanitized, if_neg (by simp only [List.length_nil]; omega),
        if_neg (by omega)]

theorem foldl_pushSanitized (T : Nat) (chunks : List Str) :
    ∀ tot : Str, chunks.foldl (pushSanitized T) (sinkOfTotal T tot)
      = sinkOfTotal T (tot ++ chunks.flatten) := by
  induction chunks with
  | nil => intro tot; simp
  | cons c cs ih =>
      intro tot
      simp only [List.foldl_cons, pushSanitized_sinkOfTotal, List.flatten_cons]
      rw [ih (tot ++ c), List.append_assoc]

theorem pushAll_eq (T : Nat) (chunks : List Str) :
    pushAll T chunks = sinkOfTotal T chunks.flatten := by
  have h0 : initSink = sinkOfTotal T [] := by simp [initSink, sinkOfTotal]
  rw [pushAll, h0, foldl_pushSanitized]
  rfl

/-- Claim C3: when the total size of all pushed chunks is at most
`spillThreshold`, `dump` returns exactly their concatenation (prefixed only
by the bracketed notice line when a notice is given), `truncated = false`,
and no spill path. -/
theorem dump_exact_under_threshold (T : Nat) (path : Str) (chunks : List Str)
    (notice : Option Str) (h : chunks.flatten.length ≤ T) :
    dump path (pushAll T chunks) notice =
      ⟨noticeLine notice ++ chunks.flatten, false, none⟩ := by
  rw [pushAll_eq, sinkOfTotal, if_neg (by omega)]
  rfl

/-- Witness for `dump_exact_under_threshold` at chunks `["ab", "c"]` with
threshold 5 and notice `"n"`. -/
theorem dump_exact_under_threshold_witness :
    ([['a', 'b'], ['c']] : List Str).flatten.length ≤ 5 ∧
      dump ['p'] (pushAll 5 [['a', 'b'], ['c']]) (some ['n']) =
        ⟨noticeLine (some ['n']) ++ ([['a', 'b'], ['c']] : List Str).flatten,
          false, none⟩ :=
  ⟨by decide, dump_exact_under_threshold 5 ['p'] [['a', 'b'], ['c']] (some ['n']) (by decide)⟩

/-- Claim C2: when the total size of all pushed chunks exceeds
`spillThreshold`, a spill file is created exactly once, its final content is
the exact concatenation of all pushed chunks, and `dump` reports
`truncated = true` together with the spill path; moreover, for every chunk
sequence, `truncated = true` holds iff a spill file was created. -/
theorem spill_exact_on_overflow (T : Nat) (path : Str) (chunks : List Str)
    (notice : Option Str) (h : T < chunks.flatten.length) :
    (pushAll T chunks).spillCount = 1 ∧
    (pushAll T chunks).spillFile = some chunks.flatten ∧
    (dump path (pushAll T chunks) notice).truncated = true ∧
    (dump path (pushAll T chunks) notice).fullOutputPath = some path ∧
    (∀ chunks2 : List Str,
      (dump path (pushAll T chunks2) notice).truncated = true ↔
        (pushAll T chunks2).spillCount = 1) := by
  rw [pushAll_eq, sinkOfTotal, if_pos h]
  refine ⟨rfl, rfl, rfl, rfl, ?_⟩
  intro chunks2
  rw [pushAll_eq, sinkOfTotal]
  by_cases h2 : T < chunks2.flatten.length
  · rw [if_pos h2]
    exact ⟨fun _ => rfl, fun _ => rfl⟩
  · rw [if_neg h2]
    exact ⟨fun hc => absurd hc (by simp [dump]), fun hc => absurd hc (by simp)⟩

/-- Witness for `spill_exact_on_overflow` at chunks `["ab", "cd"]` with
threshold 3. -/
theorem spill_exact_on_overflow_witness :
    3 < ([['a', 'b'], ['c', 'd']] : List Str).flatten.length ∧
      ((pushAll 3 [['a', 'b'], ['c', 'd']]).spillCount = 1 ∧
       (pushAll 3 [['a', 'b'], ['c', 'd']]).spillFile =
          some ([['a', 'b'], ['c', 'd']] : List Str).flatten ∧
       (dump ['p'] (pushAll 3 [['a', 'b'], ['c', 'd']]) none).truncated = true ∧
       (dump ['p'] (pushAll 3 [['a', 'b'], ['c', 'd']]) none).fullOutputPath = some ['p'] ∧
       (∀ chunks2 : List Str,
          (dump ['p'] (pushAll 3 chunks2) none).truncated = true ↔
            (pushAll 3 chunks2).spillCount = 1)) :=
  ⟨by decide, spill_exact_on_overflow 3 ['p'] [['a', 'b'], ['c', 'd']] none (by decide)⟩

/-- Claim C8: pushing `"a"`, `"b"`, `"c"` sequentially produces an
identical final sink state (buffer, spill-file content, creation count),
and hence an identical `dump` result, as pushing `"abc"` once, for every
spill threshold. -/
theorem push_chunk_assoc (T : Nat) (path : Str) (notice : Option Str) :
    pushAll T [['a'], ['b'], ['c']] = pushAll T [['a', 'b', 'c']] ∧
    dump path (pushAll T [['a'], ['b'], ['c']]) notice =
      dump path (pushAll T [['a', 'b', 'c']]) notice := by
  have h : pushAll T [['a'], ['b'], ['c']] = pushAll T [['a', 'b', 'c']] := by
    rw [pushAll_eq, pushAll_eq]
    rfl
  exact ⟨h, by rw [h]⟩

/-! ### Live-chunk observer -/

/-- Claim C5 counterexample: an exception from the observer is neither
swallowed at the sink's call site nor does the chunk reach the buffer: the
push rejects instead of returning the committed state, and the executor's
queue (which does swallow the rejection) ends up without the chunk. -/
theorem observer_exception_cex :
    pushSanitizedObs 5 throwingObserver initSink ['b'] ≠
        Except.ok (pushSanitized 5 initSink ['b']) ∧
      (enqueueAll 5 throwingObserver initSink [['a'], ['b'], ['c']]).buffer = ['a', 'c'] ∧
      (pushAll 5 [['a'], ['b'], ['c']]).buffer = ['a', 'b', 'c'] ∧
      (['a', 'c'] : Str) ≠ ['a', 'b', 'c'] := by
  refine ⟨?_, by decide, by decide, by decide⟩
  intro hcl
  rw [show pushSanitizedObs 5 throwingObserver initSink ['b'] = Except.error () from rfl]
    at hcl
  exact Except.noConfusion hcl

/-- Claim C5 as amended: when the observer throws on a chunk, the push
rejects with that exception and the sink state is unchanged (the chunk is
not committed); the executor's chunk queue swallows the rejection, so the
final sink state is exactly that of pushing the chunks the observer
accepted. -/
theorem observer_exception_amended :
    (∀ (T : Nat) (obs : Str → Except Unit Unit) (st : SinkState) (d : Str) (e : Unit),
      obs d = .error e → pushSanitizedObs T obs st d = .error e) ∧
    (∀ (T : Nat) (obs : Str → Except Unit Unit) (st : SinkState) (chunks : List Str),
      enqueueAll T obs st chunks =
        (chunks.filter (obsOk obs)).foldl (pushSanitized T) st) := by
  constructor
  · intro T obs st d e h
    rw [pushSanitizedObs, h]
  · intro T obs st chunks
    induction chunks generalizing st with
    | nil => rfl
    | cons c cs ih =>
        rw [enqueueAll, List.filter_cons]
        cases hc : obs c with
        | error e =>
            have hko : obsOk obs c = false := by rw [obsOk, hc]
            rw [hko]
            simp only [Bool.false_eq_true, if_false, pushSanitizedObs, hc]
            exact ih st
        | ok u =>
            have hko : obsOk obs c = true := by rw [obsOk, hc]
            rw [hko]
            simp only [if_true, pushSanitizedObs, hc, List.foldl_cons]
            exact ih (pushSanitized T st c)

/-- Witness for `observer_exception_amended`: the throwing observer rejects
the push of `"b"`, and enqueuing `["a","b","c"]` lands only `"a"` and
`"c"`. -/
theorem observer_exception_amended_witness :
    throwingObserver ['b'] = .error () ∧
      pushSanitizedObs 5 throwingObserver initSink ['b'] = .error () ∧
      enqueueAll 5 throwingObserver initSink [['a'], ['b'], ['c']] =
        ([['a'], ['b'], ['c']].filter (obsOk throwingObserver)).foldl
          (pushSanitized 5) initSink :=
  ⟨rfl,
    observer_exception_amended.1 5 throwingObserver initSink ['b'] () rfl,
    observer_exception_amended.2 5 throwingObserver initSink [['a'], ['b'], ['c']]⟩

/-- Claim C9 counterexample: pushing a chunk holding a control character,
the observer is never invoked with the raw chunk — no event of the push
carries it. -/
theorem push_raw_observer_cex :
    SinkEvent.observerCall ['a', Char.ofNat 7] ∉
      (pushTrace 8 initSink ['a', Char.ofNat 7]).2 := by decide

/-- Claim C9 as amended: on every push, the observer is invoked
synchronously with the sanitized chunk, as the first event and before the
chunk is committed, and the state change is that of committing the
sanitized chunk. -/
theorem push_notifies_sanitized_before_commit (T : Nat) (st : SinkState) (chunk : Str) :
    (pushTrace T st chunk).2.head? =
        some (SinkEvent.observerCall (sanitizeText chunk)) ∧
    (pushTrace T st chunk).1 = pushSanitized T st (sanitizeText chunk) ∧
    (∀ (i : Nat) (d : Str), (pushTrace T st chunk).2[i]? = some (SinkEvent.commit d) →
      ∃ j, j < i ∧ (pushTrace T st chunk).2[j]? = some (SinkEvent.observerCall d)) := by
  refine ⟨rfl, rfl, ?_⟩
  intro i d h
  match i with
  | 0 => simp [pushTrace, pushSanitizedTrace] at h
  | 1 =>
      refine ⟨0, by omega, ?_⟩
      simp only [pushTrace, pushSanitizedTrace, List.getElem?_cons_succ,
        List.getElem?_cons_zero, Option.some_inj] at h ⊢
      injection h with h1
      rw [h1]
  | n + 2 => simp [pushTrace, pushSanitizedTrace] at h

/-! ### Command executor -/

theorem timeoutNotice_ne_cancelNotice (t : Option Nat) : timeoutNotice t ≠ cancelNotice := by
  cases t with
  | none => decide
  | some ms =>
      intro h
      have h9 := congrArg (fun l : Str => l[8]?) h
      simp only [timeoutNotice] at h9
      rw [List.append_assoc, List.getElem?_append_left (by decide)] at h9
      exact absurd h9 (by decide)

/-- Claim C6: when the supplied cancellation signal is already aborted
before the runtime call, `executeBash` returns a Cancelled result — no exit
code, `cancelled = true`, output annotated with the cancellation notice —
without invoking `executeShell` and without registering an abort
listener. -/
theorem preAborted_short_circuits (T : Nat) (path : Str) (opts : BashOptions)
    (rt : ShellExecuteResult) (chunks : List Str) (h : opts.signal = some true) :
    (executeBash T path opts rt chunks).exitCode = none ∧
    (executeBash T path opts rt chunks).cancelled = true ∧
    (executeBash T path opts rt chunks).notice = some cancelNotice ∧
    (executeBash T path opts rt chunks).output = noticeLine (some cancelNotice) ∧
    (executeBash T path opts rt chunks).invokedRuntime = false ∧
    (executeBash T path opts rt chunks).registeredListener = false := by
  rw [executeBash, if_pos h]
  refine ⟨rfl, rfl, rfl, ?_, rfl, rfl⟩
  show noticeLine (some cancelNotice) ++ initSink.buffer = noticeLine (some cancelNotice)
  simp [initSink]

/-- Witness for `preAborted_short_circuits` at a concrete call with an
already-aborted signal. -/
theorem preAborted_short_circuits_witness :
    (⟨some 1000, some true, none⟩ : BashOptions).signal = some true ∧
      ((executeBash 9 ['p'] ⟨some 1000, some true, none⟩ ⟨some 0, false, false⟩
          [['h', 'i']]).exitCode = none ∧
        (executeBash 9 ['p'] ⟨some 1000, some true, none⟩ ⟨some 0, false, false⟩
          [['h', 'i']]).cancelled = true ∧
        (executeBash 9 ['p'] ⟨some 1000, some true, none⟩ ⟨some 0, false, false⟩
          [['h', 'i']]).notice = some cancelNotice ∧
        (executeBash 9 ['p'] ⟨some 1000, some true, none⟩ ⟨some 0, false, false⟩
          [['h', 'i']]).output = noticeLine (some cancelNotice) ∧
        (executeBash 9 ['p'] ⟨some 1000, some true, none⟩ ⟨some 0, false, false⟩
          [['h', 'i']]).invokedRuntime = false ∧
        (executeBash 9 ['p'] ⟨some 1000, some true, none⟩ ⟨some 0, false, false⟩
          [['h', 'i']]).registeredListener = false) :=
  ⟨rfl, preAborted_short_circuits 9 ['p'] ⟨some 1000, some true, none⟩
    ⟨some 0, false, false⟩ [['h', 'i']] rfl⟩

/-- Claim C10: a call that omits `sessionKey` (and is not short-circuited
by a pre-aborted signal) passes the fixed key `"singleton"` to the external
runtime; two such calls therefore pass the same key and target the same
persistent shell session. -/
theorem omitted_sessionKey_is_singleton (T : Nat) (path : Str)
    (o1 o2 : BashOptions) (rt1 rt2 : ShellExecuteResult) (c1 c2 : List Str)
    (h1 : o1.sessionKey = none) (h2 : o2.sessionKey = none)
    (ha1 : o1.signal ≠ some true) (ha2 : o2.signal ≠ some true) :
    (executeBash T path o1 rt1 c1).passedSessionKey =
        some (String.toList "singleton") ∧
      (executeBash T path o1 rt1 c1).passedSessionKey =
        (executeBash T path o2 rt2 c2).passedSessionKey := by
  have key : ∀ (o : BashOptions) (rt : ShellExecuteResult) (c : List Str),
      o.sessionKey = none → o.signal ≠ some true →
      (executeBash T path o rt c).passedSessionKey =
        some (String.toList "singleton") := by
    intro o rt c hk ha
    rw [executeBash, if_neg ha, hk]
    by_cases ht : rt.timedOut = true
    · rw [if_pos ht]
      rfl
    · rw [if_neg ht]
      by_cases hc : rt.cancelled = true
      · rw [if_pos hc]
        rfl
      · rw [if_neg hc]
        rfl
  have k1 := key o1 rt1 c1 h1 ha1
  have k2 := key o2 rt2 c2 h2 ha2
  exact ⟨k1, by rw [k1, k2]⟩

/-- Witness for `omitted_sessionKey_is_singleton` at two concrete calls
that both omit the session key. -/
theorem omitted_sessionKey_is_singleton_witness :
    (⟨some 1000, none, none⟩ : BashOptions).sessionKey = none ∧
      ((executeBash 9 ['p'] ⟨some 1000, none, none⟩ ⟨some 0, false, false⟩
          []).passedSessionKey = some (String.toList "singleton") ∧
        (executeBash 9 ['p'] ⟨some 1000, none, none⟩ ⟨some 0, false, false⟩
          []).passedSessionKey =
          (executeBash 9 ['p'] ⟨none, some false, none⟩ ⟨none, true, false⟩
            [['x']]).passedSessionKey) :=
  ⟨rfl, omitted_sessionKey_is_singleton 9 ['p'] ⟨some 1000, none, none⟩
    ⟨none, some false, none⟩ ⟨some 0, false, false⟩ ⟨none, true, false⟩ [] [['x']]
    rfl rfl (by simp) (by simp)⟩

/-- Claim C4: assuming the runtime's documented contract (exit code present
unless cancelled or timed out), every `executeBash` result is in exactly
one of the three terminal states — Completed, TimedOut (notice naming the
configured duration), Cancelled — and no result ever has an exit code
together with `cancelled = true`. -/
theorem executeBash_trichotomy (T : Nat) (path : Str) (opts : BashOptions)
    (rt : ShellExecuteResult) (chunks : List Str)
    (hrt : rt.cancelled = false → rt.timedOut = false → rt.exitCode.isSome) :
    (¬((executeBash T path opts rt chunks).exitCode.isSome ∧
        (executeBash T path opts rt chunks).cancelled = true)) ∧
    ((CompletedState (executeBash T path opts rt chunks) ∧
        ¬TimedOutState (executeBash T path opts rt chunks) opts.timeout ∧
        ¬CancelledState (executeBash T path opts rt chunks)) ∨
      (¬CompletedState (executeBash T path opts rt chunks) ∧
        TimedOutState (executeBash T path opts rt chunks) opts.timeout ∧
        ¬CancelledState (executeBash T path opts rt chunks)) ∨
      (¬CompletedState (executeBash T path opts rt chunks) ∧
        ¬TimedOutState (executeBash T path opts rt chunks) opts.timeout ∧
        CancelledState (executeBash T path opts rt chunks))) := by
  rw [executeBash]
  by_cases habort : opts.signal = some true
  · rw [if_pos habort]
    refine ⟨by simp, Or.inr (Or.inr ⟨?_, ?_, rfl, rfl, rfl⟩)⟩
    · rintro ⟨hs, -⟩
      simp at hs
    · rintro ⟨-, -, hn⟩
      rw [Option.some_inj] at hn
      exact timeoutNotice_ne_cancelNotice opts.timeout hn.symm
  · rw [if_neg habort]
    by_cases ht : rt.timedOut = true
    · rw [if_pos ht]
      refine ⟨by simp, Or.inr (Or.inl ⟨?_, ⟨rfl, rfl, rfl⟩, ?_⟩)⟩
      · rintro ⟨hs, -⟩
        simp at hs
      · rintro ⟨-, -, hn⟩
        rw [Option.some_inj] at hn
        exact timeoutNotice_ne_cancelNotice opts.timeout hn
    · rw [if_neg ht]
      by_cases hc : rt.cancelled = true
      · rw [if_pos hc]
        refine ⟨by simp, Or.inr (Or.inr ⟨?_, ?_, rfl, rfl, rfl⟩)⟩
        · rintro ⟨hs, -⟩
          simp at hs
        · rintro ⟨-, -, hn⟩
          rw [Option.some_inj] at hn
          exact timeoutNotice_ne_cancelNotice opts.timeout hn.symm
      · rw [if_neg hc]
        have hx : rt.exitCode.isSome :=
          hrt (Bool.not_eq_true _ ▸ hc) (Bool.not_eq_true _ ▸ ht)
        refine ⟨?_, Or.inl ⟨⟨hx, rfl⟩, ?_, ?_⟩⟩
        · rintro ⟨-, hcan⟩
          exact absurd hcan (by simp)
        · rintro ⟨-, hcan, -⟩
          exact absurd hcan (by simp)
        · rintro ⟨-, hcan, -⟩
          exact absurd hcan (by simp)

/-- Witness for `executeBash_trichotomy` at a normally completed run. -/
theorem executeBash_trichotomy_witness :
    ((⟨some 7, false, false⟩ : ShellExecuteResult).cancelled = false →
        (⟨some 7, false, false⟩ : ShellExecuteResult).timedOut = false →
        (⟨some 7, false, false⟩ : ShellExecuteResult).exitCode.isSome) ∧
      ((¬((executeBash 9 ['p'] ⟨some 5000, none, none⟩ ⟨some 7, false, false⟩
            [['o', 'k']]).exitCode.isSome ∧
          (executeBash 9 ['p'] ⟨some 5000, none, none⟩ ⟨some 7, false, false⟩
            [['o', 'k']]).cancelled = true)) ∧
        ((CompletedState (executeBash 9 ['p'] ⟨some 5000, none, none⟩
              ⟨some 7, false, false⟩ [['o', 'k']]) ∧
            ¬TimedOutState (executeBash 9 ['p'] ⟨some 5000, none, none⟩
              ⟨some 7, false, false⟩ [['o', 'k']]) (some 5000) ∧
            ¬CancelledState (executeBash 9 ['p'] ⟨some 5000, none, none⟩
              ⟨some 7, false, false⟩ [['o', 'k']])) ∨
          (¬CompletedState (executeBash 9 ['p'] ⟨some 5000, none, none⟩
              ⟨some 7, false, false⟩ [['o', 'k']]) ∧
            TimedOutState (executeBash 9 ['p'] ⟨some 5000, none, none⟩
              ⟨some 7, false, false⟩ [['o', 'k']]) (some 5000) ∧
            ¬CancelledState (executeBash 9 ['p'] ⟨some 5000, none, none⟩
              ⟨some 7, false, false⟩ [['o', 'k']])) ∨
          (¬CompletedState (executeBash 9 ['p'] ⟨some 5000, none, none⟩
              ⟨some 7, false, false⟩ [['o', 'k']]) ∧
            ¬TimedOutState (executeBash 9 ['p'] ⟨some 5000, none, none⟩
              ⟨some 7, false, false⟩ [['o', 'k']]) (some 5000) ∧
            CancelledState (executeBash 9 ['p'] ⟨some 5000, none, none⟩
              ⟨some 7, false, false⟩ [['o', 'k']])))) :=
  ⟨fun _ _ => rfl,
    executeBash_trichotomy 9 ['p'] ⟨some 5000, none, none⟩ ⟨some 7, false, false⟩
      [['o', 'k']] (fun _ _ => rfl)⟩

/-! ### Secret regex compilation -/

theorem mem_enforceGlobalFlag (c : Char) (f : Str) :
    c ∈ enforceGlobalFlag f ↔ c ∈ f ∨ c = 'g' := by
  rw [enforceGlobalFlag]
  by_cases h : 'g' ∈ f
  · rw [if_pos h]
    constructor
    · exact fun hc => Or.inl hc
    · rintro (hc | rfl)
      · exact hc
      · exact h
  · rw [if_neg h]
    simp

theorem nodup_enforceGlobalFlag (f : Str) (h : f.Nodup) :
    (enforceGlobalFlag f).Nodup := by
  rw [enforceGlobalFlag]
  by_cases hg : 'g' ∈ f
  · rwa [if_pos hg]
  · rw [if_neg hg]
    simp [List.nodup_append, h, hg]

theorem dedupChars_aux (l : Str) : ∀ acc : Str, acc.Nodup →
    (l.foldl (fun acc c => if c ∈ acc then acc else acc ++ [c]) acc).Nodup ∧
      (∀ c : Char, c ∈ l.foldl (fun acc c => if c ∈ acc then acc else acc ++ [c]) acc ↔
        c ∈ acc ∨ c ∈ l) := by
  induction l with
  | nil => intro acc hacc; simpa using hacc
  | cons x xs ih =>
      intro acc hacc
      rw [List.foldl_cons]
      by_cases hx : x ∈ acc
      · rw [if_pos hx]
        obtain ⟨hn, hm⟩ := ih acc hacc
        refine ⟨hn, fun c => ?_⟩
        rw [hm c, List.mem_cons]
        constructor
        · rintro (hc | hc)
          · exact Or.inl hc
          · exact Or.inr (Or.inr hc)
        · rintro (hc | rfl | hc)
          · exact Or.inl hc
          · exact Or.inl hx
          · exact Or.inr hc
      · rw [if_neg hx]
        obtain ⟨hn, hm⟩ := ih (acc ++ [x]) (by simp [List.nodup_append, hacc, hx])
        refine ⟨hn, fun c => ?_⟩
        rw [hm c, List.mem_append, List.mem_singleton, List.mem_cons]
        tauto

theorem mem_dedupChars (c : Char) (l : Str) : c ∈ dedupChars l ↔ c ∈ l := by
  rw [dedupChars]
  have := (dedupChars_aux l [] (by simp)).2 c
  simpa using this

theorem nodup_dedupChars (l : Str) : (dedupChars l).Nodup :=
  (dedupChars_aux l [] (by simp)).1

/-- Claim C7: every compiled secret regex carries the global flag; for a
delimiter-literal entry the embedded pattern is extracted and the embedded
flags are merged with the explicit ones as a deduplicated union; the entry
`"/bearer\s+\w+/i"` with no explicit flags compiles to pattern
`bearer\s+\w+` with flags `ig` — case-insensitive and global. -/
theorem compileSecretRegex_spec :
    (∀ (p : Str) (fl : Option Str), 'g' ∈ (compileSecretRegex p fl).2) ∧
    (∀ (p : Str) (fl : Option Str) (body lit : Str),
      parseRegexLiteral p = some (body, lit) →
        (compileSecretRegex p fl).1 = body ∧
        (compileSecretRegex p fl).2.Nodup ∧
        (∀ c : Char, c ∈ (compileSecretRegex p fl).2 ↔
          c ∈ fl.getD [] ∨ c ∈ lit ∨ c = 'g')) ∧
    (compileSecretRegex (String.toList "/bearer\\s+\\w+/i") none =
        (String.toList "bearer\\s+\\w+", ['i', 'g']) ∧
      'i' ∈ (compileSecretRegex (String.toList "/bearer\\s+\\w+/i") none).2 ∧
      'g' ∈ (compileSecretRegex (String.toList "/bearer\\s+\\w+/i") none).2) := by
  refine ⟨?_, ?_, by decide, by decide, by decide⟩
  · intro p fl
    rw [compileSecretRegex]
    cases hp : parseRegexLiteral p with
    | none => exact (mem_enforceGlobalFlag 'g' (fl.getD [])).mpr (Or.inr rfl)
    | some bf =>
        exact (mem_enforceGlobalFlag 'g' (dedupChars (fl.getD [] ++ bf.2))).mpr
          (Or.inr rfl)
  · intro p fl body lit hp
    rw [compileSecretRegex, hp]
    refine ⟨rfl, nodup_enforceGlobalFlag _ (nodup_dedupChars _), fun c => ?_⟩
    rw [mem_enforceGlobalFlag, mem_dedupChars, List.mem_append]
    tauto

/-- Witness for `compileSecretRegex_spec`, instantiating the
literal-syntax part at the entry `"/abc/i"` with explicit flags `"gi"`. -/
theorem compileSecretRegex_spec_witness :
    parseRegexLiteral (String.toList "/abc/i") = some (String.toList "abc", ['i']) ∧
      ((compileSecretRegex (String.toList "/abc/i") (some ['g', 'i'])).1 =
          String.toList "abc" ∧
        (compileSecretRegex (String.toList "/abc/i") (some ['g', 'i'])).2.Nodup ∧
        (∀ c : Char,
          c ∈ (compileSecretRegex (String.toList "/abc/i") (some ['g', 'i'])).2 ↔
            c ∈ (some ['g', 'i'] : Option Str).getD [] ∨ c ∈ ['i'] ∨ c = 'g')) :=
  ⟨by decide, compileSecretRegex_spec.2.1 (String.toList "/abc/i") (some ['g', 'i'])
    (String.toList "abc") ['i'] (by decide)⟩

/-! ### Secret redactor: decimal digits -/

theorem charVal_digitChar (d : Nat) (h : d < 10) : charVal (digitChar d) = d := by
  interval_cases d <;> rfl

theorem isDigitChar_digitChar (d : Nat) (h : d < 10) : isDigitChar (digitChar d) = true := by
  interval_cases d <;> rfl

theorem digitChar_ne_zero (d : Nat) (h1 : 1 ≤ d) (h2 : d < 10) : digitChar d ≠ '0' := by
  interval_cases d <;> decide

theorem natToDigits_ne_nil (n : Nat) : natToDigits n ≠ [] := by
  rw [natToDigits]
  split <;> simp

theorem natToDigits_digits (n : Nat) : ∀ c ∈ natToDigits n, isDigitChar c = true := by
  induction n using Nat.strong_induction_on with
  | _ n ih =>
      rw [natToDigits]
      split
      · intro c hc
        rw [List.mem_singleton] at hc
        subst hc
        exact isDigitChar_digitChar n (by omega)
      · rename_i h10
        intro c hc
        rw [List.mem_append] at hc
        rcases hc with hc | hc
        · exact ih (n / 10) (Nat.div_lt_self (by omega) (by omega)) c hc
        · rw [List.mem_singleton] at hc
          subst hc
          exact isDigitChar_digitChar (n % 10) (Nat.mod_lt n (by omega))

theorem natToDigits_head_ne_zero (n : Nat) (h : 1 ≤ n) :
    ∀ c t, natToDigits n = c :: t → c ≠ '0' := by
  induction n using Nat.strong_induction_on with
  | _ n ih =>
      rw [natToDigits]
      split
      · intro c t hct
        rw [show [digitChar n] = digitChar n :: [] from rfl] at hct
        injection hct with h1 h2
        subst h1
        exact digitChar_ne_zero n h (by omega)
      · rename_i h10
        intro c t hct
        have hdiv : 1 ≤ n / 10 := Nat.one_le_div_iff (by omega) |>.mpr (by omega)
        obtain ⟨c2, t2, he⟩ : ∃ c2 t2, natToDigits (n / 10) = c2 :: t2 := by
          cases hnd : natToDigits (n / 10) with
          | nil => exact absurd hnd (natToDigits_ne_nil _)
          | cons c2 t2 => exact ⟨c2, t2, rfl⟩
        rw [he] at hct
        have hct2 : c2 :: (t2 ++ [digitChar (n % 10)]) = c :: t := hct
        injection hct2 with h1 h2
        rw [← h1]
        exact ih (n / 10) (Nat.div_lt_self (by omega) (by omega)) hdiv c2 t2 he

theorem noLeadZero_natToDigits (n : Nat) : noLeadZeroB (natToDigits n) = true := by
  by_cases h0 : n = 0
  · subst h0
    rw [natToDigits]
    rfl
  · cases hnd : natToDigits n with
    | nil => rfl
    | cons c t =>
        cases t with
        | nil => rfl
        | cons c2 t2 =>
            have hne := natToDigits_head_ne_zero n (by omega) c (c2 :: t2) hnd
            simp [noLeadZeroB, hne]

theorem digitsVal_append (a : Str) (c : Char) :
    digitsVal (a ++ [c]) = digitsVal a * 10 + charVal c := by
  rw [digitsVal, digitsVal, List.foldl_append]
  rfl

theorem digitsVal_natToDigits (n : Nat) : digitsVal (natToDigits n) = n := by
  induction n using Nat.strong_induction_on with
  | _ n ih =>
      rw [natToDigits]
      split
      · show digitsVal [digitChar n] = n
        rw [show digitsVal [digitChar n] = 0 * 10 + charVal (digitChar n) from rfl]
        rw [charVal_digitChar n (by omega)]
        omega
      · rename_i h10
        rw [digitsVal_append, ih (n / 10) (Nat.div_lt_self (by omega) (by omega)),
          charVal_digitChar (n % 10) (Nat.mod_lt n (by omega))]
        omega

/-! ### Secret redactor: placeholder tokens -/

theorem tokChars_cons (d : Str) : tokChars d = '<' :: '<' :: bodyChars d := by
  simp [tokChars, bodyChars, phHead]

theorem placeholder_cons (i : Nat) :
    placeholder i = '<' :: '<' :: bodyChars (natToDigits i) := by
  rw [placeholder, tokChars_cons]

theorem not_lt_mem_bodyChars (d : Str) (hd : ∀ c ∈ d, isDigitChar c = true) :
    '<' ∉ bodyChars d := by
  intro hmem
  rw [bodyChars] at hmem
  rcases List.mem_cons.mp hmem with h | hmem
  · exact absurd h (by decide)
  rcases List.mem_cons.mp hmem with h | hmem
  · exact absurd h (by decide)
  rcases List.mem_cons.mp hmem with h | hmem
  · exact absurd h (by decide)
  rcases List.mem_cons.mp hmem with h | hmem
  · exact absurd h (by decide)
  rcases List.mem_cons.mp hmem with h | hmem
  · exact absurd h (by decide)
  rcases List.mem_cons.mp hmem with h | hmem
  · exact absurd h (by decide)
  rcases List.mem_append.mp hmem with h | hmem
  · exact absurd (hd '<' h) (by decide)
  rcases List.mem_cons.mp hmem with h | hmem
  · exact absurd h (by decide)
  rcases List.mem_cons.mp hmem with h | hmem
  · exact absurd h (by decide)
  simp at hmem

theorem parseToken_tok (d rest : Str) (hd : ∀ c ∈ d, isDigitChar c = true)
    (hne : d ≠ []) (hlz : noLeadZeroB d = true) :
    parseToken (tokChars d ++ rest) = some (digitsVal d, rest) := by
  have hshape : tokChars d ++ rest = phHead ++ (d ++ ('>' :: '>' :: rest)) := by
    simp [tokChars, List.append_assoc]
  have htk : (tokChars d ++ rest).take 8 = phHead := by
    rw [hshape, show (8 : Nat) = phHead.length from rfl, List.take_left]
  have hdr : (tokChars d ++ rest).drop 8 = d ++ ('>' :: '>' :: rest) := by
    rw [hshape, show (8 : Nat) = phHead.length from rfl, List.drop_left]
  have htake : (d ++ ('>' :: '>' :: rest)).takeWhile isDigitChar = d := by
    rw [List.takeWhile_append_of_pos hd, List.takeWhile_cons_of_neg (by decide)]
    simp
  have hdrop : (d ++ ('>' :: '>' :: rest)).dropWhile isDigitChar = '>' :: '>' :: rest := by
    rw [List.dropWhile_append_of_pos hd, List.dropWhile_cons_of_neg (by decide)]
  rw [parseToken, if_pos htk, hdr, htake, hdrop, if_neg hne, if_pos hlz,
    if_pos (show ('>' :: '>' :: rest).take 2 = ['>', '>'] from rfl)]
  rfl

theorem parseToken_sound (z : Str) (n : Nat) (r : Str) (h : parseToken z = some (n, r)) :
    ∃ d : Str, (∀ c ∈ d, isDigitChar c = true) ∧ d ≠ [] ∧ noLeadZeroB d = true ∧
      z = tokChars d ++ r ∧ digitsVal d = n := by
  rw [parseToken] at h
  split at h
  · rename_i h8
    split at h
    · simp at h
    · rename_i hemp
      split at h
      · rename_i hlz
        split at h
        · rename_i h2
          rw [Option.some_inj, Prod.ext_iff] at h
          obtain ⟨hval, hrest⟩ := h
          dsimp only at hval hrest
          refine ⟨(z.drop 8).takeWhile isDigitChar, ?_, hemp, hlz, ?_, hval⟩
          · intro c hc
            exact List.mem_takeWhile_imp hc
          · have hz : z = phHead ++ z.drop 8 := by
              conv_lhs => rw [← List.take_append_drop 8 z]
              rw [h8]
            have hw : z.drop 8 = (z.drop 8).takeWhile isDigitChar ++
                ('>' :: '>' :: ((z.drop 8).dropWhile isDigitChar).drop 2) := by
              conv_lhs => rw [← List.takeWhile_append_dropWhile isDigitChar (z.drop 8)]
              congr 1
              conv_lhs =>
                rw [← List.take_append_drop 2 ((z.drop 8).dropWhile isDigitChar)]
              rw [h2]
              rfl
            rw [hrest] at hw
            conv_lhs => rw [hz, hw]
            simp [tokChars, List.append_assoc]
        · simp at h
      · simp at h
  · simp at h

/-! ### Secret redactor: matchers and compilation -/

theorem findMatch_sound (ms : List Matcher) (s : Str) (m : Matcher)
    (h : findMatch ms s = some m) :
    m.content ≠ [] ∧ m.content <+: s ∧ m ∈ ms := by
  have h1 := List.find?_some h
  have h2 := of_decide_eq_true h1
  exact ⟨h2.1, h2.2, List.mem_of_find?_eq_some h⟩

theorem findMatch_nil_none (ms : List Matcher) : findMatch ms [] = none := by
  cases h : findMatch ms [] with
  | none => rfl
  | some m =>
      obtain ⟨hne, hpre, -⟩ := findMatch_sound ms [] m h
      rw [List.prefix_nil] at hpre
      exact absurd hpre hne

theorem compile_idx_ge (es : List SecretEntry) :
    ∀ (k i : Nat) (c : Str), Matcher.obf i c ∈ compileEntries es k → k ≤ i := by
  induction es with
  | nil => intro k i c h; simp [compileEntries] at h
  | cons e es ih =>
      obtain ⟨ct, md, rp⟩ := e
      intro k i c h
      cases md with
      | obfuscate =>
          rw [compileEntries] at h
          rw [List.mem_cons] at h
          rcases h with h | h
          · injection h with h1 h2
            omega
          · have := ih (k + 1) i c h
            omega
      | replace =>
          rw [compileEntries] at h
          rw [List.mem_cons] at h
          rcases h with h | h
          · exact absurd h (by simp)
          · exact ih k i c h

theorem compile_lookup (es : List SecretEntry) :
    ∀ (k i : Nat) (c : Str), Matcher.obf i c ∈ compileEntries es k →
      lookupObf (compileEntries es k) i = some c := by
  induction es with
  | nil => intro k i c h; simp [compileEntries] at h
  | cons e es ih =>
      obtain ⟨ct, md, rp⟩ := e
      intro k i c h
      cases md with
      | obfuscate =>
          rw [compileEntries] at h ⊢
          rw [List.mem_cons] at h
          rw [lookupObf]
          rcases h with h | h
          · injection h with h1 h2
            rw [if_pos h1.symm, h2]
          · have hge := compile_idx_ge es (k + 1) i c h
            rw [if_neg (by omega)]
            exact ih (k + 1) i c h
      | replace =>
          rw [compileEntries] at h ⊢
          rw [List.mem_cons] at h
          rw [lookupObf]
          rcases h with h | h
          · exact absurd h (by simp)
          · exact ih k i c h

/-! ### Secret redactor: transform equations -/

theorem redactStr_nil (ms : List Matcher) : redactStr ms [] = [] := by
  rw [redactStr.eq_def]

theorem redactStr_cons_match (ms : List Matcher) (c : Char) (rest : Str) (m : Matcher)
    (h : findMatch ms (c :: rest) = some m) :
    redactStr ms (c :: rest) = m.emit ++ redactStr ms ((c :: rest).drop m.content.length) := by
  rw [redactStr.eq_def]
  dsimp only
  split
  · rename_i m2 h2
    rw [h2] at h
    injection h with h3
    rw [h3]
  · rename_i h2
    rw [h2] at h
    exact absurd h (by simp)

theorem redactStr_cons_none (ms : List Matcher) (c : Char) (rest : Str)
    (h : findMatch ms (c :: rest) = none) :
    redactStr ms (c :: rest) = c :: redactStr ms rest := by
  rw [redactStr.eq_def]
  dsimp only
  split
  · rename_i m2 h2
    rw [h2] at h
    exact absurd h (by simp)
  · rfl

theorem restoreStr_nil (ms : List Matcher) : restoreStr ms [] = [] := by
  rw [restoreStr.eq_def]

theorem parseToken_nil : parseToken [] = none := by
  rw [parseToken]
  simp [phHead]

theorem restoreStr_eq_tok (ms : List Matcher) (z : Str) (n : Nat) (r2 ct : Str)
    (hp : parseToken z = some (n, r2)) (hl : lookupObf ms n = some ct) :
    restoreStr ms z = ct ++ restoreStr ms r2 := by
  cases z with
  | nil => rw [parseToken_nil] at hp; exact absurd hp (by simp)
  | cons c rest =>
      rw [restoreStr.eq_def]
      dsimp only
      split
      · rename_i n2 r22 h2
        rw [h2] at hp
        rw [Option.some_inj, Prod.ext_iff] at hp
        obtain ⟨hn, hr⟩ := hp
        dsimp only at hn hr
        subst hn
        subst hr
        rw [hl]
      · rename_i h2
        rw [h2] at hp
        exact absurd hp (by simp)

theorem restoreStr_copy (ms : List Matcher) (c : Char) (rest : Str)
    (h : ∀ (n2 : Nat) (r2 : Str), parseToken (c :: rest) = some (n2, r2) →
      lookupObf ms n2 = none) :
    restoreStr ms (c :: rest) = c :: restoreStr ms rest := by
  rw [restoreStr.eq_def]
  dsimp only
  split
  · rename_i n2 r22 h2
    rw [h n2 r22 h2]
  · rfl

/-! ### Secret redactor: side conditions as propositions -/

theorem strContains_iff (s pat : Str) : strContains s pat = true ↔ pat <:+: s := by
  rw [strContains, List.any_eq_true]
  constructor
  · rintro ⟨t, ht, hp⟩
    rw [List.mem_tails] at ht
    rw [List.isPrefixOf_iff_prefix] at hp
    exact List.infix_iff_prefix_suffix.mpr ⟨t, hp, ht⟩
  · intro hinf
    obtain ⟨t, hp, ht⟩ := List.infix_iff_prefix_suffix.mp hinf
    exact ⟨t, (List.mem_tails t s).mpr ht, List.isPrefixOf_iff_prefix.mpr hp⟩

theorem noTok_iff (ms : List Matcher) (s : Str) : noTok ms s = true ↔
    ∀ t, t <:+ s → ∀ (n : Nat) (r2 : Str), parseToken t = some (n, r2) →
      lookupObf ms n = none := by
  rw [noTok, List.all_eq_true]
  constructor
  · intro h t hts n r2 hp
    have h2 := h t ((List.mem_tails t s).mpr hts)
    rw [hp] at h2
    dsimp only at h2
    cases hl : lookupObf ms n with
    | none => rfl
    | some ct =>
        rw [hl] at h2
        simp at h2
  · intro h t htmem
    rw [List.mem_tails] at htmem
    cases hp : parseToken t with
    | none => rfl
    | some nr =>
        obtain ⟨n2, r2⟩ := nr
        dsimp only
        rw [h t htmem n2 r2 hp]
        rfl

theorem noRepl_iff (ms : List Matcher) (s : Str) : noRepl ms s = true ↔
    ∀ (ct rp : Str), Matcher.repl ct rp ∈ ms → ¬(ct <:+: s) := by
  rw [noRepl, List.all_eq_true]
  constructor
  · intro h ct rp hm hinf
    have h2 := h _ hm
    dsimp only at h2
    rw [← strContains_iff s ct] at hinf
    rw [hinf] at h2
    simp at h2
  · intro h m hm
    cases m with
    | obf i ct => rfl
    | repl ct rp =>
        dsimp only
        have h2 := h ct rp hm
        rw [← strContains_iff s ct] at h2
        cases hc : strContains s ct with
        | false => rfl
        | true => exact absurd hc h2

theorem noTok_suffix (ms : List Matcher) {s t : Str} (ht : t <:+ s)
    (h : noTok ms s = true) : noTok ms t = true := by
  rw [noTok_iff] at h ⊢
  intro u hu
  exact h u (hu.trans ht)

theorem noRepl_suffix (ms : List Matcher) {s t : Str} (ht : t <:+ s)
    (h : noRepl ms s = true) : noRepl ms t = true := by
  rw [noRepl_iff] at h ⊢
  intro ct rp hm hinf
  obtain ⟨u, hp, hsuf⟩ := List.infix_iff_prefix_suffix.mp hinf
  exact h ct rp hm (List.infix_iff_prefix_suffix.mpr ⟨u, hp, hsuf.trans ht⟩)

/-! ### Secret redactor: a token never starts at a copied position -/

theorem redact_token_tail_prefix (ms : List Matcher) (d : Str)
    (hd : ∀ c ∈ d, isDigitChar c = true) :
    ∀ (n : Nat) (s w : Str), s.length ≤ n → noRepl ms s = true →
      w <:+ bodyChars d → w <+: redactStr ms s → w <+: s := by
  intro n
  induction n with
  | zero =>
      intro s w hlen h1 h2 h3
      cases s with
      | nil =>
          rw [redactStr_nil, List.prefix_nil] at h3
          rw [h3]
      | cons c rest => simp at hlen
  | succ n ih =>
      intro s w hlen h1 h2 h3
      cases s with
      | nil =>
          rw [redactStr_nil, List.prefix_nil] at h3
          rw [h3]
      | cons c rest =>
          cases hfm : findMatch ms (c :: rest) with
          | none =>
              rw [redactStr_cons_none ms c rest hfm] at h3
              cases w with
              | nil => exact List.nil_prefix
              | cons a w2 =>
                  rw [List.cons_prefix_cons] at h3
                  obtain ⟨rfl, h3b⟩ := h3
                  have h2b : w2 <:+ bodyChars d := (List.suffix_cons a w2).trans h2
                  have h1b : noRepl ms rest = true :=
                    noRepl_suffix ms (List.suffix_cons a rest) h1
                  have hres := ih rest w2 (by simp only [List.length_cons] at hlen; omega)
                    h1b h2b h3b
                  exact List.cons_prefix_cons.mpr ⟨rfl, hres⟩
          | some m =>
              cases m with
              | repl ct rp =>
                  obtain ⟨hne, hpre, hmem⟩ := findMatch_sound _ _ _ hfm
                  exact absurd hpre.isInfix ((noRepl_iff ms (c :: rest)).mp h1 ct rp hmem)
              | obf i ct =>
                  rw [redactStr_cons_match ms c rest _ hfm] at h3
                  cases w with
                  | nil => exact List.nil_prefix
                  | cons a w2 =>
                      exfalso
                      simp only [Matcher.emit, placeholder_cons, List.cons_append] at h3
                      have ha : a = '<' := (List.cons_prefix_cons.mp h3).1
                      have hamem : a ∈ bodyChars d := h2.subset (List.mem_cons_self a w2)
                      rw [ha] at hamem
                      exact not_lt_mem_bodyChars d hd hamem

theorem redact_token_head_prefix (ms : List Matcher) (d : Str)
    (hd : ∀ c ∈ d, isDigitChar c = true) (s : Str) (h1 : noRepl ms s = true)
    (h3 : ('<' :: bodyChars d) <+: redactStr ms s) : ('<' :: bodyChars d) <+: s := by
  cases s with
  | nil =>
      rw [redactStr_nil, List.prefix_nil] at h3
      exact absurd h3 (by simp)
  | cons c rest =>
      cases hfm : findMatch ms (c :: rest) with
      | none =>
          rw [redactStr_cons_none ms c rest hfm] at h3
          rw [List.cons_prefix_cons] at h3 ⊢
          obtain ⟨h3a, h3b⟩ := h3
          exact ⟨h3a, redact_token_tail_prefix ms d hd rest.length rest (bodyChars d)
            le_rfl (noRepl_suffix ms (List.suffix_cons c rest) h1)
            (List.suffix_refl _) h3b⟩
      | some m =>
          cases m with
          | repl ct rp =>
              obtain ⟨hne, hpre, hmem⟩ := findMatch_sound _ _ _ hfm
              exact absurd hpre.isInfix ((noRepl_iff ms (c :: rest)).mp h1 ct rp hmem)
          | obf i ct =>
              exfalso
              rw [redactStr_cons_match ms c rest _ hfm] at h3
              simp only [Matcher.emit, placeholder_cons, List.cons_append] at h3
              rw [List.cons_prefix_cons] at h3
              obtain ⟨-, h3b⟩ := h3
              rw [bodyChars, List.cons_prefix_cons] at h3b
              exact absurd h3b.1 (by decide)

/-! ### Secret redactor: round trip -/

theorem restoreStr_id_of_noTok (ms : List Matcher) :
    ∀ (n : Nat) (s : Str), s.length ≤ n → noTok ms s = true → restoreStr ms s = s := by
  intro n
  induction n with
  | zero =>
      intro s hlen _
      cases s with
      | nil => exact restoreStr_nil ms
      | cons c rest => simp at hlen
  | succ n ih =>
      intro s hlen h
      cases s with
      | nil => exact restoreStr_nil ms
      | cons c rest =>
          have hcopy : ∀ (n2 : Nat) (r2 : Str), parseToken (c :: rest) = some (n2, r2) →
              lookupObf ms n2 = none :=
            fun n2 r2 hp => (noTok_iff ms (c :: rest)).mp h (c :: rest)
              (List.suffix_refl _) n2 r2 hp
          rw [restoreStr_copy ms c rest hcopy]
          rw [ih rest (by simp only [List.length_cons] at hlen; omega)
            (noTok_suffix ms (List.suffix_cons c rest) h)]

theorem roundtrip_str (ms : List Matcher)
    (hwf : ∀ (i : Nat) (c : Str), Matcher.obf i c ∈ ms → lookupObf ms i = some c) :
    ∀ (n : Nat) (s : Str), s.length ≤ n → noTok ms s = true → noRepl ms s = true →
      restoreStr ms (redactStr ms s) = s := by
  intro n
  induction n with
  | zero =>
      intro s hlen _ _
      cases s with
      | nil => rw [redactStr_nil, restoreStr_nil]
      | cons c rest => simp at hlen
  | succ n ih =>
      intro s hlen h1 h2
      cases s with
      | nil => rw [redactStr_nil, restoreStr_nil]
      | cons c rest =>
          cases hfm : findMatch ms (c :: rest) with
          | some m =>
              obtain ⟨hne, hpre, hmem⟩ := findMatch_sound _ _ _ hfm
              cases m with
              | repl ct rp =>
                  exact absurd hpre.isInfix ((noRepl_iff ms (c :: rest)).mp h2 ct rp hmem)
              | obf i ct =>
                  rw [redactStr_cons_match ms c rest _ hfm]
                  have hct : Matcher.content (Matcher.obf i ct) = ct := rfl
                  rw [hct] at hne hpre
                  have hparse := parseToken_tok (natToDigits i)
                    (redactStr ms ((c :: rest).drop ct.length))
                    (natToDigits_digits i) (natToDigits_ne_nil i) (noLeadZero_natToDigits i)
                  rw [digitsVal_natToDigits] at hparse
                  have hlook : lookupObf ms i = some ct := hwf i ct hmem
                  have hemit : Matcher.emit (Matcher.obf i ct) = tokChars (natToDigits i) := rfl
                  rw [hemit, Matcher.content]
                  rw [restoreStr_eq_tok ms _ i _ ct hparse hlook]
                  obtain ⟨t, ht⟩ := hpre
                  have hdrop : (c :: rest).drop ct.length = t := by
                    rw [← ht, List.drop_left]
                  have hsuf : (c :: rest).drop ct.length <:+ c :: rest :=
                    List.drop_suffix _ _
                  have hctpos : 0 < ct.length := List.length_pos.mpr hne
                  have hlen2 : ((c :: rest).drop ct.length).length ≤ n := by
                    rw [List.length_drop]
                    simp only [List.length_cons] at hlen ⊢
                    omega
                  rw [ih _ hlen2 (noTok_suffix ms hsuf h1) (noRepl_suffix ms hsuf h2)]
                  rw [hdrop, ← ht]
          | none =>
              rw [redactStr_cons_none ms c rest hfm]
              by_cases hp : ∀ (n2 : Nat) (r2 : Str),
                  parseToken (c :: redactStr ms rest) = some (n2, r2) →
                    lookupObf ms n2 = none
              · rw [restoreStr_copy ms c _ hp]
                rw [ih rest (by simp only [List.length_cons] at hlen; omega)
                  (noTok_suffix ms (List.suffix_cons c rest) h1)
                  (noRepl_suffix ms (List.suffix_cons c rest) h2)]
              · exfalso
                push_neg at hp
                obtain ⟨n2, r2, hps, hlk⟩ := hp
                obtain ⟨ct, hct⟩ := Option.ne_none_iff_exists'.mp hlk
                obtain ⟨d, hdd, hdne, hdlz, hzeq, hdval⟩ := parseToken_sound _ _ _ hps
                rw [tokChars_cons] at hzeq
                have hzeq2 : c :: redactStr ms rest = '<' :: (('<' :: bodyChars d) ++ r2) :=
                  hzeq
                have hc1 : c = '<' := by injection hzeq2 with hx hy
                have hc2 : redactStr ms rest = ('<' :: bodyChars d) ++ r2 := by
                  injection hzeq2 with hx hy
                have hpre2 : ('<' :: bodyChars d) <+: redactStr ms rest := ⟨r2, hc2.symm⟩
                have hhead := redact_token_head_prefix ms d hdd rest
                  (noRepl_suffix ms (List.suffix_cons c rest) h2) hpre2
                have htok : tokChars d <+: c :: rest := by
                  rw [tokChars_cons, hc1]
                  exact List.cons_prefix_cons.mpr ⟨rfl, hhead⟩
                obtain ⟨u, hu⟩ := htok
                have hps2 : parseToken (c :: rest) = some (digitsVal d, u) := by
                  rw [← hu]
                  exact parseToken_tok d u hdd hdne hdlz
                have hnone := (noTok_iff ms (c :: rest)).mp h1 (c :: rest)
                  (List.suffix_refl _) (digitsVal d) u hps2
                rw [hdval] at hnone
                rw [hnone] at hct
                exact absurd hct (by simp)

/-! ### Secret redactor: structured values -/

mutual
theorem roundtrip_val_aux (ms : List Matcher)
    (hwf : ∀ (i : Nat) (c : Str), Matcher.obf i c ∈ ms → lookupObf ms i = some c) :
    ∀ v : SValue, valOk (goodStr ms) v = true →
      mapStrings (restoreStr ms) (mapStrings (redactStr ms) v) = v
  | .str s, h => by
      simp only [mapStrings]
      have h2 : (noTok ms s && noRepl ms s) = true := h
      rw [Bool.and_eq_true] at h2
      rw [roundtrip_str ms hwf s.length s le_rfl h2.1 h2.2]
  | .num n, _ => rfl
  | .boolV b, _ => rfl
  | .nullV, _ => rfl
  | .arr xs, h => by
      simp only [mapStrings]
      rw [roundtrip_list_aux ms hwf xs h]
  | .obj xs, h => by
      simp only [mapStrings]
      rw [roundtrip_obj_aux ms hwf xs h]

theorem roundtrip_list_aux (ms : List Matcher)
    (hwf : ∀ (i : Nat) (c : Str), Matcher.obf i c ∈ ms → lookupObf ms i = some c) :
    ∀ xs : SList, listOk (goodStr ms) xs = true →
      mapStringsL (restoreStr ms) (mapStringsL (redactStr ms) xs) = xs
  | .nil, _ => rfl
  | .cons v tl, h => by
      simp only [mapStringsL]
      have h2 : (valOk (goodStr ms) v && listOk (goodStr ms) tl) = true := h
      rw [Bool.and_eq_true] at h2
      rw [roundtrip_val_aux ms hwf v h2.1, roundtrip_list_aux ms hwf tl h2.2]

theorem roundtrip_obj_aux (ms : List Matcher)
    (hwf : ∀ (i : Nat) (c : Str), Matcher.obf i c ∈ ms → lookupObf ms i = some c) :
    ∀ xs : SObj, objOk (goodStr ms) xs = true →
      mapStringsO (restoreStr ms) (mapStringsO (redactStr ms) xs) = xs
  | .nil, _ => rfl
  | .cons k v tl, h => by
      simp only [mapStringsO]
      have h2 : (goodStr ms k && valOk (goodStr ms) v && objOk (goodStr ms) tl) = true := h
      rw [Bool.and_eq_true, Bool.and_eq_true] at h2
      have hk : (noTok ms k && noRepl ms k) = true := h2.1.1
      rw [Bool.and_eq_true] at hk
      rw [roundtrip_str ms hwf k.length k le_rfl hk.1 hk.2]
      rw [roundtrip_val_aux ms hwf v h2.1.2, roundtrip_obj_aux ms hwf tl h2.2]
end

/-- Claim C1: modelled from the spec (the obfuscator source is not under
`src/`), for plain-substring matcher sets: `restore(redact(x)) = x` for
every structured value `x` all of whose strings contain no placeholder
token with a compiled index (the claim's "no literal text coincidentally
matching a placeholder token") and contain no `replace`-mode content (the
claim's "containing only obfuscate-mode secrets"); moreover `restore` is
the identity on token-free strings and leaves non-string leaves
unchanged. -/
theorem restore_redact_roundtrip :
    (∀ (es : List SecretEntry) (x : SValue),
      valOk (goodStr (compileEntries es 0)) x = true →
        restoreValue (compileEntries es 0) (redactValue (compileEntries es 0) x) = x) ∧
    (∀ (ms : List Matcher) (s : Str), noTok ms s = true → restoreStr ms s = s) ∧
    (∀ (ms : List Matcher) (n : Int), restoreValue ms (SValue.num n) = SValue.num n) ∧
    (∀ (ms : List Matcher) (b : Bool), restoreValue ms (SValue.boolV b) = SValue.boolV b) ∧
    (∀ ms : List Matcher, restoreValue ms SValue.nullV = SValue.nullV) := by
  refine ⟨?_, ?_, fun ms n => rfl, fun ms b => rfl, fun ms => rfl⟩
  · intro es x h
    exact roundtrip_val_aux (compileEntries es 0)
      (fun i c hm => compile_lookup es 0 i c hm) x h
  · intro ms s h
    exact restoreStr_id_of_noTok ms s.length s le_rfl h

/-- Witness for `restore_redact_roundtrip`: the spec's scenario 9 — one
obfuscate entry `sk-live-XYZ` and the structured value
`{"arg": "key=sk-live-XYZ"}` — plus a restore-identity instance. -/
theorem restore_redact_roundtrip_witness :
    valOk (goodStr (compileEntries
          [⟨String.toList "sk-live-XYZ", SecretMode.obfuscate, none⟩] 0))
        (SValue.obj (SObj.cons (String.toList "arg")
          (SValue.str (String.toList "key=sk-live-XYZ")) SObj.nil)) = true ∧
      restoreValue (compileEntries
          [⟨String.toList "sk-live-XYZ", SecretMode.obfuscate, none⟩] 0)
        (redactValue (compileEntries
          [⟨String.toList "sk-live-XYZ", SecretMode.obfuscate, none⟩] 0)
          (SValue.obj (SObj.cons (String.toList "arg")
            (SValue.str (String.toList "key=sk-live-XYZ")) SObj.nil))) =
        SValue.obj (SObj.cons (String.toList "arg")
          (SValue.str (String.toList "key=sk-live-XYZ")) SObj.nil) ∧
      noTok [Matcher.obf 0 (String.toList "sk-live-XYZ")]
          (String.toList "plain text") = true ∧
      restoreStr [Matcher.obf 0 (String.toList "sk-live-XYZ")]
          (String.toList "plain text") = String.toList "plain text" :=
  ⟨by decide,
    restore_redact_roundtrip.1
      [⟨String.toList "sk-live-XYZ", SecretMode.obfuscate, none⟩]
      (SValue.obj (SObj.cons (String.toList "arg")
        (SValue.str (String.toList "key=sk-live-XYZ")) SObj.nil)) (by decide),
    by decide,
    restore_redact_roundtrip.2.1 [Matcher.obf 0 (String.toList "sk-live-XYZ")]
      (String.toList "plain text") (by decide)⟩

/-- Witness for `push_notifies_sanitized_before_commit` at a concrete push
whose chunk contains a control character. -/
theorem push_notifies_sanitized_before_commit_witness :
    (pushTrace 8 initSink ['a', Char.ofNat 7]).2.head? =
        some (SinkEvent.observerCall (sanitizeText ['a', Char.ofNat 7])) ∧
      ((pushTrace 8 initSink ['a', Char.ofNat 7]).2[1]? =
          some (SinkEvent.commit ['a']) ∧
        ∃ j, j < 1 ∧ (pushTrace 8 initSink ['a', Char.ofNat 7]).2[j]? =
          some (SinkEvent.observerCall ['a'])) :=
  ⟨(push_notifies_sanitized_before_commit 8 initSink ['a', Char.ofNat 7]).1,
    by decide,
    (push_notifies_sanitized_before_commit 8 initSink ['a', Char.ofNat 7]).2.2 1 ['a']
      (by decide)⟩

end OhMyPi
